import Mathlib

/-!
Verification of the room-scoped collaborative-drawing synchronization engine.

Shallow embedding of the TypeScript sources:
 - `src/server/drawing-state.ts` : `DrawingState` (operation log, user map, palette index),
 - `src/server/rooms.ts`         : `RoomManager`,
 - `src/server/server.ts`        : the socket handlers composing the per-room state machine,
 - `src/client/main.ts`          : the client-side redo stack (`redoStack`) maintained by the
   `onUndo` / `onRedo` / `onDrawOperation` / `onClearCanvas` callbacks and by `stopDrawing`,
 - `src/client/canvas.ts`        : `CanvasManager.simplifyPath`.

Numbers: canvas coordinates and stroke widths are JavaScript numbers; they are embedded
as exact rationals (`ℚ`).  The only numeric operation the verified code performs on them
is the comparison `Math.sqrt (dx*dx + dy*dy) > tolerance` inside `simplifyPath`; since
both sides are nonnegative and squaring is monotone, it is embedded exactly as
`dx*dx + dy*dy > tolerance*tolerance` (the lemma `sqrt_gt_iff_sq_lt` below justifies this
encoding over the reals).  JavaScript `Map` objects (insertion-ordered, unique keys) are
embedded as association lists with `Map.get` / `Map.set` / `Map.delete` counterparts
`alGet` / `alSet` / `alDel`.

The specification's per-room "Session State" is realized by two cooperating pieces of
source code: the server's authoritative `DrawingState` (log and users; the server keeps
no redo buffer — `undoLastOperation` merely pops and returns, `redoOperation` merely
pushes), and the client's `redoStack` in `main.ts`, which every client updates in
lock-step from the globally broadcast `undo` / `redo` / `draw-operation` /
`clear-canvas` events.  `SessionState` below composes the two, each transition following
the corresponding handler pair.
-/

/-- A canvas point, from the `DrawPoint` interface (`{x: number; y: number}`). -/
structure DrawPoint where
  x : ℚ
  y : ℚ
deriving DecidableEq

/-- The `type` field of a `DrawingOperation`: `'draw' | 'erase'`. -/
inductive OpType where
  | draw
  | erase
deriving DecidableEq

/-- The `DrawingOperation` interface of `drawing-state.ts` / `canvas.ts`. -/
structure DrawingOperation where
  id : String
  userId : String
  userName : String
  type : OpType
  points : List DrawPoint
  color : String
  width : ℚ
  timestamp : Int
deriving DecidableEq

/-- The `User` interface of `drawing-state.ts` (`cursorX` / `cursorY` are optional). -/
structure User where
  id : String
  name : String
  color : String
  cursorX : Option ℚ
  cursorY : Option ℚ
deriving DecidableEq

/-! ### Association-list model of a JavaScript `Map` -/

/-- `Map.get k`: the value at the first (in a real `Map`: only) entry with key `k`. -/
def alGet {α : Type} : List (String × α) → String → Option α
  | [], _ => none
  | (k0, v0) :: rest, k => if k0 = k then some v0 else alGet rest k

/-- `Map.set k v`: replace the entry with key `k` in place, else append a new entry. -/
def alSet {α : Type} : List (String × α) → String → α → List (String × α)
  | [], k, v => [(k, v)]
  | (k0, v0) :: rest, k, v =>
      if k0 = k then (k0, v) :: rest else (k0, v0) :: alSet rest k v

/-- `Map.delete k`: remove the entry with key `k`. -/
def alDel {α : Type} : List (String × α) → String → List (String × α)
  | [], _ => []
  | (k0, v0) :: rest, k => if k0 = k then rest else (k0, v0) :: alDel rest k

/-! ### Server-side room state (`DrawingState`, `drawing-state.ts`) -/

/-- The fixed `userColors` palette of `DrawingState`. -/
def userColors : List String :=
  ["#FF6B6B", "#4ECDC4", "#45B7D1", "#FFA07A",
   "#98D8C8", "#F7DC6F", "#BB8FCE", "#85C1E2"]

/-- The mutable fields of a `DrawingState` instance: the operation log, the user map
and the round-robin palette index `colorIdx`. -/
structure DrawingState where
  operations : List DrawingOperation
  users : List (String × User)
  colorIdx : Nat
deriving DecidableEq

namespace DrawingState

/-- `new DrawingState()`. -/
def empty : DrawingState := ⟨[], [], 0⟩

/-- `DrawingState.addUser`: builds a `User` with the palette color at
`colorIdx % userColors.length`, increments `colorIdx`, and stores the user under
`userId` (a `Map.set`, so an existing record under the same id is replaced). -/
def addUser (s : DrawingState) (userId userName : String) : User × DrawingState :=
  let color := userColors.getD (s.colorIdx % userColors.length) ""
  let user : User := ⟨userId, userName, color, none, none⟩
  (user, { s with users := alSet s.users userId user, colorIdx := s.colorIdx + 1 })

/-- `DrawingState.removeUser`: `this.users.delete(userId)`. -/
def removeUser (s : DrawingState) (userId : String) : DrawingState :=
  { s with users := alDel s.users userId }

/-- `DrawingState.getUsers`: `Array.from(this.users.values())`. -/
def getUsers (s : DrawingState) : List User := s.users.map Prod.snd

/-- `DrawingState.getUser`. -/
def getUser (s : DrawingState) (userId : String) : Option User := alGet s.users userId

/-- `DrawingState.updateUserCursor`: mutates the stored user's cursor when the id is
known, silently does nothing otherwise. -/
def updateUserCursor (s : DrawingState) (userId : String) (x y : ℚ) : DrawingState :=
  match alGet s.users userId with
  | some user =>
      { s with users := alSet s.users userId { user with cursorX := some x, cursorY := some y } }
  | none => s

/-- `DrawingState.addOperation`: `this.operations.push(op)`. -/
def addOperation (s : DrawingState) (op : DrawingOperation) : DrawingState :=
  { s with operations := s.operations ++ [op] }

/-- `DrawingState.undoLastOperation`: returns `null` on an empty log, otherwise pops
and returns the last operation of the log.  (The server keeps no redo buffer.) -/
def undoLastOperation (s : DrawingState) : Option DrawingOperation × DrawingState :=
  match s.operations.getLast? with
  | none => (none, s)
  | some op => (some op, { s with operations := s.operations.dropLast })

/-- `DrawingState.redoOperation`: `this.operations.push(op)` — no validation. -/
def redoOperation (s : DrawingState) (op : DrawingOperation) : DrawingState :=
  { s with operations := s.operations ++ [op] }

/-- `DrawingState.clearAll`: `this.operations = []`. -/
def clearAll (s : DrawingState) : DrawingState :=
  { s with operations := [] }

/-- `DrawingState.getOperationCount`. -/
def getOperationCount (s : DrawingState) : Nat := s.operations.length

/-- `DrawingState.getAllOperations` (returns a copy of the log). -/
def getAllOperations (s : DrawingState) : List DrawingOperation := s.operations

end DrawingState

/-! ### The per-room session state machine

The specification's Session State: the server's `DrawingState` plus the clients'
`redoStack` (`main.ts`; the stack evolves identically on every client of the room
because `undo` / `redo` / `clear-canvas` are broadcast to all members including the
sender, and a `draw-operation` clears it both at the originator — `stopDrawing` —
and at the receivers — `onDrawOperation`). -/
structure SessionState where
  server : DrawingState
  redoStack : List DrawingOperation
deriving DecidableEq

namespace SessionState

/-- A fresh room: `new DrawingState()` and an empty client redo stack. -/
def empty : SessionState := ⟨DrawingState.empty, []⟩

/-- `apply`: the `draw-operation` handler calls `addOperation`; every client clears
its redo stack (`clearRedoStack` in `stopDrawing` / `onDrawOperation`). -/
def applyOp (s : SessionState) (op : DrawingOperation) : SessionState :=
  { server := s.server.addOperation op, redoStack := [] }

/-- `undo`: the `undo` handler calls `undoLastOperation`; when an operation was
removed it is broadcast and every client pushes it (`onUndo`:
`this.redoStack.push(data.operation)`); when the log was empty nothing is broadcast
and no client state changes. -/
def undo (s : SessionState) : Option DrawingOperation × SessionState :=
  match s.server.undoLastOperation with
  | (none, st) => (none, { s with server := st })
  | (some op, st) => (some op, { server := st, redoStack := s.redoStack ++ [op] })

/-- `redo`: the `redo` handler calls `redoOperation`; every client removes the
operation from its redo stack by id (`onRedo`:
`this.redoStack = this.redoStack.filter(o => o.id !== op.id)`). -/
def redo (s : SessionState) (op : DrawingOperation) : SessionState :=
  { server := s.server.redoOperation op,
    redoStack := s.redoStack.filter (fun o => o.id != op.id) }

/-- `clear`: the `clear-canvas` handler calls `clearAll`; every client clears its
stacks (`onClearCanvas`). -/
def clear (s : SessionState) : SessionState :=
  { server := s.server.clearAll, redoStack := [] }

/-- `join`: the `join-room` handler calls `addUser`; no client redo stack changes. -/
def join (s : SessionState) (userId userName : String) : SessionState :=
  { s with server := (s.server.addUser userId userName).2 }

/-- `leave`: the `disconnect` handler calls `removeUser`. -/
def leave (s : SessionState) (userId : String) : SessionState :=
  { s with server := s.server.removeUser userId }

/-- `moveCursor`: the `cursor-move` handler calls `updateUserCursor`. -/
def moveCursor (s : SessionState) (userId : String) (x y : ℚ) : SessionState :=
  { s with server := s.server.updateUserCursor userId x y }

end SessionState

/-- One inbound protocol event of the session state machine. -/
inductive Event where
  | applyOp (op : DrawingOperation)
  | undo
  | redo (op : DrawingOperation)
  | clear
  | join (userId userName : String)
  | leave (userId : String)
  | moveCursor (userId : String) (x y : ℚ)
deriving DecidableEq

/-- Dispatch of one event (the per-room serialization turn). -/
def step (s : SessionState) : Event → SessionState
  | .applyOp op => s.applyOp op
  | .undo => (s.undo).2
  | .redo op => s.redo op
  | .clear => s.clear
  | .join userId userName => s.join userId userName
  | .leave userId => s.leave userId
  | .moveCursor userId x y => s.moveCursor userId x y

/-- Run a sequence of events from a given state. -/
def runFrom (s : SessionState) : List Event → SessionState
  | [] => s
  | e :: es => runFrom (step s e) es

/-- The ids held anywhere in the session: log first, then redo stack. -/
def allIds (s : SessionState) : List String :=
  (s.server.operations ++ s.redoStack).map DrawingOperation.id

/-- Caller-contract well-formedness of a trace: every applied operation carries an id
that is fresh for the session (not in the log nor in the redo buffer), and every redo
targets an operation currently in the redo buffer — the contracts the specification
states for `apply` (globally unique ids) and `redo` ("callers must only redo an
Operation currently present in `redoBuffer`"). -/
def WfFrom : SessionState → List Event → Prop
  | _, [] => True
  | s, e :: es =>
    (match e with
     | .applyOp op => op.id ∉ allIds s
     | .redo op => op ∈ s.redoStack
     | _ => True) ∧ WfFrom (step s e) es

/-! ### Room registry (`RoomManager`, `rooms.ts`) and the dispatch layer -/

/-- The process-wide room table `rooms: Map<string, DrawingState>`. -/
structure RoomManager where
  rooms : List (String × DrawingState)
deriving DecidableEq

namespace RoomManager

/-- `RoomManager.getRoom`: get-or-create.  The functional embedding returns the
resolved state together with the (possibly extended) table. -/
def getRoom (m : RoomManager) (roomId : String) : DrawingState × RoomManager :=
  match alGet m.rooms roomId with
  | some st => (st, m)
  | none => (DrawingState.empty, ⟨alSet m.rooms roomId DrawingState.empty⟩)

/-- `RoomManager.hasRoom`. -/
def hasRoom (m : RoomManager) (roomId : String) : Bool := (alGet m.rooms roomId).isSome

/-- `RoomManager.deleteRoomIfEmpty`: deletes the room and returns `true` exactly when
the room exists and `room.getUsers().length === 0`; otherwise returns `false` leaving
the table unchanged. -/
def deleteRoomIfEmpty (m : RoomManager) (roomId : String) : Bool × RoomManager :=
  match alGet m.rooms roomId with
  | some room =>
      if room.getUsers.length = 0 then (true, ⟨alDel m.rooms roomId⟩) else (false, m)
  | none => (false, m)

/-- `RoomManager.getAllRoomIds`: `Array.from(this.rooms.keys())`. -/
def getAllRoomIds (m : RoomManager) : List String := m.rooms.map Prod.fst

/-- `RoomManager.getRoomCount`. -/
def getRoomCount (m : RoomManager) : Nat := m.rooms.length

/-- The `join-room` handler of `server.ts`: resolve the room, then `addUser`.  The
source mutates the `DrawingState` object held by the `Map` in place; the functional
embedding writes the updated state back under the same key. -/
def joinRoom (m : RoomManager) (roomId userId userName : String) : User × RoomManager :=
  let (st, m1) := m.getRoom roomId
  let (user, st') := st.addUser userId userName
  (user, ⟨alSet m1.rooms roomId st'⟩)

/-- The `disconnect` handler of `server.ts`: `removeUser`, then `deleteRoomIfEmpty`. -/
def handleDisconnect (m : RoomManager) (roomId userId : String) : Bool × RoomManager :=
  let (st, m1) := m.getRoom roomId
  let st' := st.removeUser userId
  let m2 : RoomManager := ⟨alSet m1.rooms roomId st'⟩
  m2.deleteRoomIfEmpty roomId

end RoomManager

/-! ### Path simplifier (`CanvasManager.simplifyPath`, `canvas.ts` lines 434–461) -/

/-- Squared Euclidean distance between two points; `dx*dx + dy*dy` in the source
(the source takes `Math.sqrt` before comparing with the tolerance; the comparison is
embedded on squares, see the file header and `sqrt_gt_iff_sq_lt`). -/
def distSq (p q : DrawPoint) : ℚ :=
  (q.x - p.x) * (q.x - p.x) + (q.y - p.y) * (q.y - p.y)

/-- The `for` loop of `simplifyPath`: `prev` is the last element pushed to `result`
(`result[result.length - 1]`), the list argument is `points[i ..]`; the loop stops with
`i = points.length - 2`, after which `points[points.length - 1]` is pushed
unconditionally. -/
def simplifyAux (tolerance : ℚ) (prev : DrawPoint) : List DrawPoint → List DrawPoint
  | [] => []
  | [p] => [p]
  | curr :: next :: rest =>
    if distSq prev curr > tolerance * tolerance ∨ distSq curr next > tolerance * tolerance then
      curr :: simplifyAux tolerance curr (next :: rest)
    else
      simplifyAux tolerance prev (next :: rest)

/-- `CanvasManager.simplifyPath`: returns inputs of length ≤ 2 unchanged; otherwise keeps
`points[0]`, runs the loop over the interior points with the hard-coded
`const tolerance = 2`, and always keeps the final point. -/
def simplifyPath (points : List DrawPoint) : List DrawPoint :=
  if points.length ≤ 2 then points
  else
    match points with
    | [] => points
    | p0 :: rest => p0 :: simplifyAux 2 p0 rest

/-! ### Reference single-pass rule, written from the specification's words
("always keep the first point; for each interior point, compute Euclidean distance to the
previously *kept* point and to the next raw point; keep the interior point if either
distance exceeds `tolerance`, else drop it; always keep the last point. Sequences of
length ≤ 2 are returned unchanged.") -/

/-- The interior scan of the specification's rule: `prevKept` is the previously kept
point, the list argument holds the remaining interior points, and the next raw point of
an interior point is the following interior point, or the last point when none follows. -/
def specInterior (tolerance : ℚ) (prevKept lastP : DrawPoint) :
    List DrawPoint → List DrawPoint
  | [] => []
  | c :: rest =>
    if distSq prevKept c > tolerance * tolerance ∨
        distSq c (rest.headD lastP) > tolerance * tolerance then
      c :: specInterior tolerance c lastP rest
    else
      specInterior tolerance prevKept lastP rest

/-- The specification's single-pass simplification rule: sequences of length ≤ 2
unchanged; otherwise first point, scanned interior, last point. -/
def specSimplify (tolerance : ℚ) (points : List DrawPoint) : List DrawPoint :=
  if points.length ≤ 2 then points
  else
    match points with
    | [] => points
    | p0 :: rest =>
      let lastP := rest.getLastD p0
      p0 :: specInterior tolerance p0 lastP rest.dropLast ++ [lastP]

/-- "Every interior point is dropped": each listed point is within the tolerance of
the first (= previously kept) point and of its next raw point (the following listed
point, or the final point `lastP`). -/
def DropAll (tolerance : ℚ) (p0 lastP : DrawPoint) : List DrawPoint → Prop
  | [] => True
  | c :: rest =>
      distSq p0 c ≤ tolerance * tolerance ∧
      distSq c (rest.headD lastP) ≤ tolerance * tolerance ∧
      DropAll tolerance p0 lastP rest

/-! ### Concrete data used by witnesses and counterexamples -/

/-- A sample stroke. -/
def opA : DrawingOperation :=
  ⟨"opA", "u1", "Alice", .draw, [⟨0, 0⟩, ⟨5, 5⟩], "#000000", 3, 0⟩

/-- A second sample stroke with a distinct id. -/
def opB : DrawingOperation :=
  ⟨"opB", "u2", "Bob", .erase, [⟨1, 1⟩], "#FFFFFF", 8, 1⟩

/-- A session whose log holds `opA` and whose redo buffer holds `opB`. -/
def sessionAB : SessionState := ⟨⟨[opA], [], 0⟩, [opB]⟩

/-- A session with an empty log but non-trivial users and redo buffer. -/
def sessionEmptyLog : SessionState :=
  ⟨⟨[], [("u1", ⟨"u1", "Alice", "#FF6B6B", none, none⟩)], 3⟩, [opB]⟩

/-- Five collinear points with unit spacing (strictly below the tolerance 2). -/
def cePts : List DrawPoint := [⟨0, 0⟩, ⟨1, 0⟩, ⟨2, 0⟩, ⟨3, 0⟩, ⟨4, 0⟩]

/-- A room state whose user map already holds `"u1"` and whose palette index is 1. -/
def stRejoin : DrawingState :=
  ⟨[], [("u1", ⟨"u1", "Alice", "#FF6B6B", none, none⟩)], 1⟩

/-! ### Helper lemmas -/

/-- Justification of the squared-distance encoding: for a nonnegative tolerance,
`Real.sqrt d > t` holds exactly when `d > t ^ 2`. -/
theorem sqrt_gt_iff_sq_lt (d t : ℝ) (ht : 0 ≤ t) :
    t < Real.sqrt d ↔ t ^ 2 < d := by
  rw [show t = Real.sqrt (t ^ 2) by rw [Real.sqrt_sq ht]]
  rw [Real.sqrt_sq ht]
  exact Real.lt_sqrt ht

/-- The loop of `simplifyPath` agrees with the specification's interior scan once the
final point is split off the tail of the input. -/
theorem simplifyAux_eq_specInterior (tolerance : ℚ) (lastP : DrawPoint) :
    ∀ (interior : List DrawPoint) (prev : DrawPoint),
      simplifyAux tolerance prev (interior ++ [lastP]) =
        specInterior tolerance prev lastP interior ++ [lastP] := by
  intro interior
  induction interior with
  | nil => intro prev; simp [simplifyAux, specInterior]
  | cons c rest ih =>
    intro prev
    cases rest with
    | nil =>
      simp only [List.cons_append, List.nil_append, simplifyAux, specInterior, List.headD]
      split
      · simp [simplifyAux, specInterior]
      · simp [simplifyAux, specInterior]
    | cons c2 rest2 =>
      simp only [List.cons_append, List.append_eq, simplifyAux, specInterior, List.headD]
      split
      · rw [← List.cons_append, ih c]
        simp [specInterior, List.headD]
      · rw [← List.cons_append, ih prev]
        simp [specInterior, List.headD]

/-- Undo on an empty log is a complete no-op: it signals `none` and returns the
session unchanged. -/
theorem undo_of_operations_nil (s : SessionState) (h : s.server.operations = []) :
    s.undo = (none, s) := by
  simp [SessionState.undo, DrawingState.undoLastOperation, h]

/-! ### Claim theorems -/

/-- C1: for every session whose log is non-empty, `undo` followed by `redo` of the
returned operation restores the log to exactly its pre-undo content and order, leaves
the user map untouched, and removes from the redo buffer exactly the entries carrying
that operation's id (every entry with a different id survives, in order). -/
theorem c1_undo_redo_roundtrip (s : SessionState) (h : s.server.operations ≠ []) :
    ∃ op s1, s.undo = (some op, s1) ∧
      (s1.redo op).server.operations = s.server.operations ∧
      (s1.redo op).redoStack = s.redoStack.filter (fun o => o.id != op.id) ∧
      (s1.redo op).server.users = s.server.users := by
  have hlast := List.getLast?_eq_getLast_of_ne_nil h
  refine ⟨s.server.operations.getLast h,
    ⟨{ s.server with operations := s.server.operations.dropLast },
      s.redoStack ++ [s.server.operations.getLast h]⟩, ?_, ?_, ?_, ?_⟩
  · simp [SessionState.undo, DrawingState.undoLastOperation, hlast]
  · simp [SessionState.redo, DrawingState.redoOperation, List.dropLast_append_getLast h]
  · simp [SessionState.redo, List.filter_append]
  · rfl

/-- Witness for C1 on a concrete session. -/
theorem c1_witness :
    sessionAB.server.operations ≠ [] ∧
    ∃ op s1, sessionAB.undo = (some op, s1) ∧
      (s1.redo op).server.operations = sessionAB.server.operations ∧
      (s1.redo op).redoStack = sessionAB.redoStack.filter (fun o => o.id != op.id) ∧
      (s1.redo op).server.users = sessionAB.server.users :=
  ⟨by decide, c1_undo_redo_roundtrip sessionAB (by decide)⟩

/-- C2: applying a fresh (non-redo) operation to a session with a non-empty redo
buffer leaves the redo buffer empty. -/
theorem c2_apply_clears_redoStack (s : SessionState) (op : DrawingOperation)
    (_h : s.redoStack ≠ []) : (s.applyOp op).redoStack = [] := rfl

/-- Witness for C2 on a concrete session. -/
theorem c2_witness : sessionAB.redoStack ≠ [] ∧ (sessionAB.applyOp opA).redoStack = [] :=
  ⟨by decide, c2_apply_clears_redoStack sessionAB opA (by decide)⟩

/-- C3: for every operation `op` present in the redo buffer, `redo op` appends `op` at
the tail of the log and removes from the redo buffer exactly the entries whose id is
`op.id` (so no entry with that id remains). -/
theorem c3_redo_appends_and_filters (s : SessionState) (op : DrawingOperation)
    (_hmem : op ∈ s.redoStack) :
    (s.redo op).server.operations = s.server.operations ++ [op] ∧
    (s.redo op).redoStack = s.redoStack.filter (fun o => o.id != op.id) ∧
    ∀ o ∈ (s.redo op).redoStack, o.id ≠ op.id := by
  refine ⟨rfl, rfl, ?_⟩
  intro o ho
  have h2 := List.of_mem_filter ho
  simpa using h2

/-- Witness for C3 on a concrete session. -/
theorem c3_witness :
    opB ∈ sessionAB.redoStack ∧
    (sessionAB.redo opB).server.operations = sessionAB.server.operations ++ [opB] ∧
    (sessionAB.redo opB).redoStack = sessionAB.redoStack.filter (fun o => o.id != opB.id) ∧
    ∀ o ∈ (sessionAB.redo opB).redoStack, o.id ≠ opB.id :=
  ⟨by decide, c3_redo_appends_and_filters sessionAB opB (by decide)⟩

/-- C7: undo on a session with an empty log returns no operation (`null` — a regular
return value, not an error) and leaves the whole session (log, redo buffer, users)
unchanged. -/
theorem c7_undo_empty_noop (s : SessionState) (h : s.server.operations = []) :
    s.undo = (none, s) :=
  undo_of_operations_nil s h

/-- Witness for C7 on a concrete session with users and a non-empty redo buffer. -/
theorem c7_witness :
    sessionEmptyLog.server.operations = [] ∧
    sessionEmptyLog.undo = (none, sessionEmptyLog) :=
  ⟨rfl, c7_undo_empty_noop sessionEmptyLog rfl⟩

/-- C8: `clear` unconditionally empties the log and the redo buffer, leaves the user
map unchanged, and an undo performed immediately after it is a no-op. -/
theorem c8_clear_frame (s : SessionState) :
    (s.clear).server.operations = [] ∧ (s.clear).redoStack = [] ∧
    (s.clear).server.users = s.server.users ∧
    (s.clear).undo = (none, s.clear) :=
  ⟨rfl, rfl, rfl, undo_of_operations_nil s.clear rfl⟩

/-- C5: `simplifyPath` equals the specification's single-pass rule at tolerance 2 on
every point sequence. -/
theorem c5_simplifyPath_eq_spec (points : List DrawPoint) :
    simplifyPath points = specSimplify 2 points := by
  by_cases h : points.length ≤ 2
  · simp [simplifyPath, specSimplify, h]
  · cases points with
    | nil => simp at h
    | cons p0 rest =>
      have hne : rest ≠ [] := by
        intro hr
        subst hr
        simp at h
      have hlastD : rest.getLastD p0 = rest.getLast hne := by
        simp [List.getLastD_eq_getLast?, List.getLast?_eq_getLast_of_ne_nil hne]
      simp only [simplifyPath, specSimplify, if_neg h]
      rw [hlastD]
      conv_lhs => rw [← List.dropLast_append_getLast hne]
      rw [simplifyAux_eq_specInterior]
      simp

/-- When every interior point is within the tolerance of the first point and of its
next raw point, the loop drops every interior point. -/
theorem simplifyAux_of_dropAll (tolerance : ℚ) (p0 lastP : DrawPoint) :
    ∀ interior : List DrawPoint, DropAll tolerance p0 lastP interior →
      simplifyAux tolerance p0 (interior ++ [lastP]) = [lastP] := by
  intro interior
  induction interior with
  | nil => intro _; simp [simplifyAux]
  | cons c rest ih =>
    intro hd
    obtain ⟨h1, h2, h3⟩ := hd
    cases rest with
    | nil =>
      have hcond : ¬(distSq p0 c > tolerance * tolerance ∨
          distSq c lastP > tolerance * tolerance) := by
        push_neg
        exact ⟨h1, h2⟩
      simp only [List.cons_append, List.nil_append, simplifyAux, if_neg hcond]
    | cons c2 rest2 =>
      have hcond : ¬(distSq p0 c > tolerance * tolerance ∨
          distSq c c2 > tolerance * tolerance) := by
        push_neg
        exact ⟨h1, h2⟩
      simp only [List.cons_append, simplifyAux, if_neg hcond]
      exact ih h3

/-- C6, counterexample to the claim as stated: `cePts` is a straight line of five
collinear points (all on the x-axis) whose consecutive spacing (1 unit) is strictly
below the tolerance 2, yet `simplifyPath` keeps the interior point `(3, 0)` — the
point at which the distance to the previously *kept* point (the first point) exceeds
the tolerance — so the result is not just the first and last point. -/
theorem c6_counterexample :
    (∀ p ∈ cePts, p.y = 0) ∧
    (distSq ⟨0, 0⟩ ⟨1, 0⟩ < 2 * 2 ∧ distSq ⟨1, 0⟩ ⟨2, 0⟩ < 2 * 2 ∧
      distSq ⟨2, 0⟩ ⟨3, 0⟩ < 2 * 2 ∧ distSq ⟨3, 0⟩ ⟨4, 0⟩ < 2 * 2) ∧
    simplifyPath cePts = [⟨0, 0⟩, ⟨3, 0⟩, ⟨4, 0⟩] ∧
    simplifyPath cePts ≠ [⟨0, 0⟩, ⟨4, 0⟩] := by
  refine ⟨by decide,
    ⟨by norm_num [distSq], by norm_num [distSq], by norm_num [distSq], by norm_num [distSq]⟩,
    ?_, ?_⟩
  · norm_num [cePts, simplifyPath, simplifyAux, distSq]
  · norm_num [cePts, simplifyPath, simplifyAux, distSq]

/-- C6 as amended: when every interior point of a sequence of at least three points is
within the tolerance (2) both of the first point and of its next raw point,
`simplifyPath` returns only the first and last point; and every sequence of length ≤ 2
is returned unchanged. -/
theorem c6_amended_first_last :
    (∀ (p0 lastP : DrawPoint) (interior : List DrawPoint),
        DropAll 2 p0 lastP interior →
          simplifyPath (p0 :: interior ++ [lastP]) = [p0, lastP]) ∧
    (∀ points : List DrawPoint, points.length ≤ 2 → simplifyPath points = points) := by
  constructor
  · intro p0 lastP interior hd
    cases interior with
    | nil => simp [simplifyPath]
    | cons c rest =>
      have hlen : ¬((p0 :: (c :: rest) ++ [lastP]).length ≤ 2) := by simp
      simp only [simplifyPath, if_neg hlen]
      show p0 :: simplifyAux 2 p0 ((c :: rest) ++ [lastP]) = [p0, lastP]
      rw [simplifyAux_of_dropAll 2 p0 lastP (c :: rest) hd]
  · intro points hlen
    simp [simplifyPath, hlen]

/-- Witness for the amended C6 on a concrete three-point line. -/
theorem c6_witness :
    DropAll 2 ⟨0, 0⟩ ⟨2, 0⟩ [⟨1, 0⟩] ∧
    simplifyPath [⟨0, 0⟩, ⟨1, 0⟩, ⟨2, 0⟩] = [⟨0, 0⟩, ⟨2, 0⟩] := by
  have hd : DropAll 2 ⟨0, 0⟩ ⟨2, 0⟩ [⟨1, 0⟩] :=
    ⟨by norm_num [distSq], by norm_num [distSq], trivial⟩
  exact ⟨hd, c6_amended_first_last.1 ⟨0, 0⟩ ⟨2, 0⟩ [⟨1, 0⟩] hd⟩

/-- A key is absent exactly when `alGet` returns `none`. -/
theorem alGet_eq_none_iff {α : Type} (l : List (String × α)) (k : String) :
    alGet l k = none ↔ k ∉ l.map Prod.fst := by
  induction l with
  | nil => simp [alGet]
  | cons kv rest ih =>
    obtain ⟨k0, v0⟩ := kv
    by_cases hk : k0 = k
    · subst hk
      simp [alGet]
    · simp only [alGet, if_neg hk, ih, List.map_cons, List.mem_cons]
      constructor
      · intro h
        push_neg
        exact ⟨fun he => hk he.symm, h⟩
      · intro h
        push_neg at h
        exact h.2

/-- Setting an absent key appends the new entry at the end. -/
theorem alSet_of_get_none {α : Type} {l : List (String × α)} {k : String}
    (h : alGet l k = none) (v : α) : alSet l k v = l ++ [(k, v)] := by
  induction l with
  | nil => simp [alSet]
  | cons kv rest ih =>
    obtain ⟨k0, v0⟩ := kv
    by_cases hk : k0 = k
    · simp [alGet, hk] at h
    · simp only [alGet, hk, if_neg hk] at h
      simp [alSet, hk, ih h]

/-- Lookup skips a prefix that does not hold the key. -/
theorem alGet_append_of_none {α : Type} {l1 : List (String × α)} {k : String}
    (h : alGet l1 k = none) (l2 : List (String × α)) :
    alGet (l1 ++ l2) k = alGet l2 k := by
  induction l1 with
  | nil => simp
  | cons kv rest ih =>
    obtain ⟨k0, v0⟩ := kv
    by_cases hk : k0 = k
    · simp [alGet, hk] at h
    · simp only [alGet, hk, if_neg hk] at h
      simp [alGet, hk, ih h]

/-- Setting a key that only occurs as the last entry replaces that entry in place. -/
theorem alSet_append_of_none {α : Type} {l1 : List (String × α)} {k : String}
    (h : alGet l1 k = none) (v w : α) :
    alSet (l1 ++ [(k, v)]) k w = l1 ++ [(k, w)] := by
  induction l1 with
  | nil => simp [alSet]
  | cons kv rest ih =>
    obtain ⟨k0, v0⟩ := kv
    by_cases hk : k0 = k
    · simp [alGet, hk] at h
    · simp only [alGet, hk, if_neg hk] at h
      simp [alSet, hk, ih h]

/-- Deleting a key that only occurs as the last entry drops exactly that entry. -/
theorem alDel_append_of_none {α : Type} {l1 : List (String × α)} {k : String}
    (h : alGet l1 k = none) (v : α) :
    alDel (l1 ++ [(k, v)]) k = l1 := by
  induction l1 with
  | nil => simp [alDel]
  | cons kv rest ih =>
    obtain ⟨k0, v0⟩ := kv
    by_cases hk : k0 = k
    · simp [alGet, hk] at h
    · simp only [alGet, hk, if_neg hk] at h
      simp [alDel, hk, ih h]

/-- After `alSet`, looking up the same key yields the stored value. -/
theorem alGet_alSet_self {α : Type} (l : List (String × α)) (k : String) (v : α) :
    alGet (alSet l k v) k = some v := by
  induction l with
  | nil => simp [alGet, alSet]
  | cons kv rest ih =>
    obtain ⟨k0, v0⟩ := kv
    by_cases hk : k0 = k <;> simp [alGet, alSet, hk, ih]

/-- Setting a key that is already present keeps the entry count. -/
theorem alSet_length_of_get_isSome {α : Type} {l : List (String × α)} {k : String}
    (h : (alGet l k).isSome) (v : α) : (alSet l k v).length = l.length := by
  induction l with
  | nil => simp [alGet] at h
  | cons kv rest ih =>
    obtain ⟨k0, v0⟩ := kv
    by_cases hk : k0 = k
    · simp [alSet, hk]
    · simp only [alGet, hk, if_neg hk] at h
      simp [alSet, hk, ih h]

/-- C9: `deleteRoomIfEmpty` removes an existing room's state if and only if its user
map is empty at the time of the call, returning `true` exactly when removal occurred
and leaving the registry unchanged otherwise; a lookup miss also returns `false`
unchanged; and a `join` immediately followed by the disconnect handler (leave, then
delete-if-empty) on a fresh room returns `true` and removes the room from the id
list. -/
theorem c9_releaseIfEmpty :
    (∀ (m : RoomManager) (roomId : String) (st : DrawingState),
        alGet m.rooms roomId = some st →
          ((m.deleteRoomIfEmpty roomId).1 = true ↔ st.users = []) ∧
          (st.users = [] →
            (m.deleteRoomIfEmpty roomId).2.rooms = alDel m.rooms roomId) ∧
          (st.users ≠ [] → m.deleteRoomIfEmpty roomId = (false, m))) ∧
    (∀ (m : RoomManager) (roomId : String),
        alGet m.rooms roomId = none → m.deleteRoomIfEmpty roomId = (false, m)) ∧
    (∀ (m : RoomManager) (roomId userId userName : String),
        alGet m.rooms roomId = none →
          (((m.joinRoom roomId userId userName).2.handleDisconnect roomId userId).1
              = true) ∧
          roomId ∉
            ((m.joinRoom roomId userId userName).2.handleDisconnect
                roomId userId).2.getAllRoomIds) := by
  refine ⟨?_, ?_, ?_⟩
  · intro m roomId st hget
    have hcond : (st.getUsers.length = 0) ↔ st.users = [] := by
      simp [DrawingState.getUsers, List.length_eq_zero]
    unfold RoomManager.deleteRoomIfEmpty
    rw [hget]
    by_cases hu : st.users = []
    · simp [hcond, hu]
    · simp [hcond, hu]
  · intro m roomId hget
    unfold RoomManager.deleteRoomIfEmpty
    rw [hget]
  · intro m roomId userId userName hget
    have hmem := (alGet_eq_none_iff m.rooms roomId).mp hget
    constructor
    · simp [RoomManager.joinRoom, RoomManager.getRoom, RoomManager.handleDisconnect,
        RoomManager.deleteRoomIfEmpty, RoomManager.getAllRoomIds, DrawingState.addUser,
        DrawingState.empty, DrawingState.removeUser, DrawingState.getUsers, hget,
        alSet_of_get_none hget, alSet_append_of_none hget, alGet_append_of_none hget,
        alDel_append_of_none hget, alGet, alSet, alDel]
    · simp [RoomManager.joinRoom, RoomManager.getRoom, RoomManager.handleDisconnect,
        RoomManager.deleteRoomIfEmpty, RoomManager.getAllRoomIds, DrawingState.addUser,
        DrawingState.empty, DrawingState.removeUser, DrawingState.getUsers, hget,
        alSet_of_get_none hget, alSet_append_of_none hget, alGet_append_of_none hget,
        alDel_append_of_none hget, alGet, alSet, alDel]
      simpa using hmem

/-- Witness for C9: on an empty registry, join then disconnect of a fresh room "r1"
returns `true` and the room is absent from the id list. -/
theorem c9_witness :
    alGet (RoomManager.mk []).rooms "r1" = none ∧
    ((((RoomManager.mk []).joinRoom "r1" "u1" "Alice").2.handleDisconnect "r1" "u1").1
        = true) ∧
    "r1" ∉ (((RoomManager.mk []).joinRoom "r1" "u1" "Alice").2.handleDisconnect
        "r1" "u1").2.getAllRoomIds :=
  ⟨rfl, c9_releaseIfEmpty.2.2 ⟨[]⟩ "r1" "u1" "Alice" rfl⟩

/-- C10: re-joining with a userId already present silently replaces that user's
record (the user count does not grow, the stored record becomes the freshly built
one), while the palette index still advances by one — and the replacing user can
therefore receive a different color from the one previously held. -/
theorem c10_rejoin_replaces :
    (∀ (st : DrawingState) (userId userName : String) (u : User),
        alGet st.users userId = some u →
          (st.addUser userId userName).2.users.length = st.users.length ∧
          alGet (st.addUser userId userName).2.users userId
              = some (st.addUser userId userName).1 ∧
          (st.addUser userId userName).2.colorIdx = st.colorIdx + 1 ∧
          (st.addUser userId userName).1.color
              = userColors.getD (st.colorIdx % userColors.length) "") ∧
    (∃ (st : DrawingState) (userId userName : String) (u : User),
        alGet st.users userId = some u ∧
          (st.addUser userId userName).1.color ≠ u.color) := by
  constructor
  · intro st userId userName u hget
    refine ⟨?_, ?_, rfl, rfl⟩
    · exact alSet_length_of_get_isSome (by simp [hget]) _
    · exact alGet_alSet_self st.users userId _
  · exact ⟨stRejoin, "u1", "Alice", ⟨"u1", "Alice", "#FF6B6B", none, none⟩,
      by decide, by decide⟩

/-- Witness for C10 on a concrete room state holding user "u1". -/
theorem c10_witness :
    alGet stRejoin.users "u1" = some ⟨"u1", "Alice", "#FF6B6B", none, none⟩ ∧
    ((stRejoin.addUser "u1" "Alice").2.users.length = stRejoin.users.length ∧
      alGet (stRejoin.addUser "u1" "Alice").2.users "u1"
          = some (stRejoin.addUser "u1" "Alice").1 ∧
      (stRejoin.addUser "u1" "Alice").2.colorIdx = stRejoin.colorIdx + 1 ∧
      (stRejoin.addUser "u1" "Alice").1.color
          = userColors.getD (stRejoin.colorIdx % userColors.length) "") :=
  ⟨by decide, c10_rejoin_replaces.1 stRejoin "u1" "Alice"
    ⟨"u1", "Alice", "#FF6B6B", none, none⟩ (by decide)⟩

/-- The ids after an `apply` are the log ids extended with the new id. -/
theorem allIds_applyOp (s : SessionState) (op : DrawingOperation) :
    allIds (s.applyOp op) = s.server.operations.map DrawingOperation.id ++ [op.id] := by
  simp [allIds, SessionState.applyOp, DrawingState.addOperation]

/-- A fresh `apply` preserves distinctness of all session ids. -/
theorem nodup_allIds_applyOp (s : SessionState) (op : DrawingOperation)
    (hInv : (allIds s).Nodup) (hfresh : op.id ∉ allIds s) :
    (allIds (s.applyOp op)).Nodup := by
  rw [allIds_applyOp]
  rw [allIds, List.map_append] at hInv hfresh
  have h1 : (s.server.operations.map DrawingOperation.id).Nodup :=
    (List.nodup_append.mp hInv).1
  have h2 : op.id ∉ s.server.operations.map DrawingOperation.id := fun hmem =>
    hfresh (List.mem_append_left _ hmem)
  refine List.nodup_append.mpr ⟨h1, List.nodup_singleton _, ?_⟩
  intro a ha hb
  rw [List.mem_singleton] at hb
  exact h2 (hb ▸ ha)

/-- `undo` permutes the session ids (tail of the log moves to the redo buffer), so it
preserves their distinctness. -/
theorem nodup_allIds_undo (s : SessionState) (hInv : (allIds s).Nodup) :
    (allIds (s.undo).2).Nodup := by
  rcases hop : s.server.operations.getLast? with _ | op
  · have hnil : s.server.operations = [] := by
      simpa [List.getLast?_eq_none_iff] using hop
    rw [undo_of_operations_nil s hnil]
    exact hInv
  · have hne : s.server.operations ≠ [] := by
      intro h0
      rw [h0] at hop
      simp at hop
    have hgl : s.server.operations.getLast hne = op := by
      have h := List.getLast?_eq_getLast_of_ne_nil hne
      rw [hop] at h
      exact (Option.some_inj.mp h).symm
    have hsplit : s.server.operations.dropLast ++ [op] = s.server.operations := by
      rw [← hgl]
      exact List.dropLast_append_getLast hne
    have hundo : (s.undo).2 =
        ⟨{ s.server with operations := s.server.operations.dropLast },
          s.redoStack ++ [op]⟩ := by
      simp [SessionState.undo, DrawingState.undoLastOperation, hop]
    rw [hundo]
    have hperm : List.Perm
        (s.server.operations.dropLast ++ (s.redoStack ++ [op]))
        (s.server.operations ++ s.redoStack) := by
      have h2 : List.Perm
          (s.server.operations.dropLast ++ (s.redoStack ++ [op]))
          (s.server.operations.dropLast ++ ([op] ++ s.redoStack)) :=
        List.Perm.append_left _ List.perm_append_comm
      have h3 : s.server.operations.dropLast ++ ([op] ++ s.redoStack)
          = s.server.operations ++ s.redoStack := by
        rw [← List.append_assoc, hsplit]
      rw [h3] at h2
      exact h2
    exact (hperm.map DrawingOperation.id).nodup_iff.mpr hInv

/-- A `redo` of an operation currently in the redo buffer moves one id from the
buffer side to the log side and drops every buffer entry with that id, so it
preserves distinctness of all session ids. -/
theorem nodup_allIds_redo (s : SessionState) (op : DrawingOperation)
    (hInv : (allIds s).Nodup) (hmem : op ∈ s.redoStack) :
    (allIds (s.redo op)).Nodup := by
  have hInv' := hInv
  rw [allIds, List.map_append, List.nodup_append] at hInv'
  obtain ⟨hL, hR, hdisj⟩ := hInv'
  have hopR : op.id ∈ s.redoStack.map DrawingOperation.id :=
    List.mem_map_of_mem _ hmem
  have hopL : op.id ∉ s.server.operations.map DrawingOperation.id := fun hc =>
    hdisj hc hopR
  show (((s.server.operations ++ [op]) ++
      s.redoStack.filter (fun o => o.id != op.id)).map DrawingOperation.id).Nodup
  rw [List.map_append, List.map_append, List.map_singleton, List.nodup_append]
  refine ⟨?_, ?_, ?_⟩
  · rw [List.nodup_append]
    refine ⟨hL, List.nodup_singleton _, ?_⟩
    intro a ha hb
    rw [List.mem_singleton] at hb
    exact hopL (hb ▸ ha)
  · exact List.Nodup.sublist (List.Sublist.map _ (List.filter_sublist _)) hR
  · intro a ha haF
    rw [List.mem_append] at ha
    rw [List.mem_map] at haF
    obtain ⟨o, hoF, rfl⟩ := haF
    have hoMem := List.mem_of_mem_filter hoF
    have hoNe : o.id ≠ op.id := by simpa using List.of_mem_filter hoF
    cases ha with
    | inl hLmem => exact hdisj hLmem (List.mem_map_of_mem _ hoMem)
    | inr hone =>
      rw [List.mem_singleton] at hone
      exact hoNe hone

/-- `moveCursor` never touches the log or the redo buffer. -/
theorem allIds_moveCursor (s : SessionState) (userId : String) (x y : ℚ) :
    allIds (s.moveCursor userId x y) = allIds s := by
  unfold SessionState.moveCursor DrawingState.updateUserCursor
  cases alGet s.server.users userId <;> rfl

/-- Along any contract-respecting trace, all ids in the session stay distinct. -/
theorem nodup_allIds_runFrom :
    ∀ (es : List Event) (s : SessionState),
      (allIds s).Nodup → WfFrom s es → (allIds (runFrom s es)).Nodup := by
  intro es
  induction es with
  | nil => intro s hInv _; exact hInv
  | cons e es ih =>
    intro s hInv hwf
    obtain ⟨hpre, hrest⟩ := hwf
    refine ih (step s e) ?_ hrest
    cases e with
    | applyOp op => exact nodup_allIds_applyOp s op hInv hpre
    | undo => exact nodup_allIds_undo s hInv
    | redo op => exact nodup_allIds_redo s op hInv hpre
    | clear => exact List.nodup_nil
    | join userId userName => exact hInv
    | leave userId => exact hInv
    | moveCursor userId x y =>
      show (allIds (s.moveCursor userId x y)).Nodup
      rw [allIds_moveCursor]
      exact hInv

/-- C4, counterexample to the claim as stated: the state machine performs no
validation, so a `redo` of an operation that is not in the redo buffer (here: a redo
of an operation that was just applied and never undone) is one of the permitted
protocol events and duplicates that operation's id in the log. -/
theorem c4_counterexample :
    ¬ (((runFrom SessionState.empty
          [Event.applyOp opA, Event.redo opA]).server.operations.map
        DrawingOperation.id).Nodup) := by decide

/-- C4 as amended: starting from the empty session, along every event sequence in
which each applied operation's id is fresh for the session (absent from the current
log and redo buffer) and each redo targets an operation currently in the redo buffer,
the log never contains two operations with the same id. -/
theorem c4_amended_nodup (es : List Event) (h : WfFrom SessionState.empty es) :
    ((runFrom SessionState.empty es).server.operations.map DrawingOperation.id).Nodup := by
  have hrun := nodup_allIds_runFrom es SessionState.empty
    (by simp [allIds, SessionState.empty, DrawingState.empty]) h
  rw [allIds, List.map_append] at hrun
  exact (List.nodup_append.mp hrun).1

/-- Witness for the amended C4 on a concrete apply–undo–redo trace. -/
theorem c4_witness :
    WfFrom SessionState.empty [Event.applyOp opA, Event.undo, Event.redo opA] ∧
    ((runFrom SessionState.empty
        [Event.applyOp opA, Event.undo, Event.redo opA]).server.operations.map
      DrawingOperation.id).Nodup := by
  have hwf : WfFrom SessionState.empty [Event.applyOp opA, Event.undo, Event.redo opA] :=
    ⟨by decide, trivial, by decide, trivial⟩
  exact ⟨hwf, c4_amended_nodup _ hwf⟩
